import Mathlib

/-!
Verification of the voice-identity matching pipeline in
scripts/voice-embedding-worker.py: segment selection and merging
(create_speaker_embeddings, lines 76-117), fingerprint aggregation
(lines 119-142), cosine-similarity scoring (compare_speakers,
lines 145-166) and best-match assignment (find_best_matches,
lines 169-191).

Numeric modelling: embedding vectors and similarity scores are Python
floats; aggregation (exact field arithmetic) is modelled over the
rationals, and cosine similarity (which needs square roots) over the
reals.  Timestamps are Python ints, modelled as Int.  Python dicts are
modelled as insertion-ordered association lists, which is exactly the
iteration order CPython guarantees.
-/

namespace VoiceWorker

/-- Models one record of the diarization_words JSON list.  Each Python
dict key that the worker reads via word.get is an optional field; the
field named stop models the JSON key named end (a Lean keyword). -/
structure Word where
  speaker : Option String
  startMs : Option Int
  start : Option Int
  endMs : Option Int
  stop : Option Int
  text : Option String
  word : Option String
deriving Repr, DecidableEq

/-- Models the per-speaker segment dict built at lines 84-88: keys
start, end (here stop) and text. -/
structure Seg where
  start : Int
  stop : Int
  text : String
deriving Repr, DecidableEq

/-- Line 77: speaker = word.get('speaker', 'UNKNOWN'). -/
def getSpeaker (w : Word) : String :=
  w.speaker.getD ("UNKNOWN")

/-- Line 85: word.get('startMs', word.get('start', 0)). -/
def getStart (w : Word) : Int :=
  match w.startMs with
  | some v => v
  | none => w.start.getD 0

/-- Line 86: word.get('endMs', word.get('end', 0)). -/
def getEnd (w : Word) : Int :=
  match w.endMs with
  | some v => v
  | none => w.stop.getD 0

/-- Line 87: word.get('text', word.get('word', '')). -/
def getText (w : Word) : String :=
  match w.text with
  | some v => v
  | none => w.word.getD ("")

/-- The segment dict appended for one word at lines 84-88. -/
def wordSeg (w : Word) : Seg :=
  { start := getStart w, stop := getEnd w, text := getText w }

/-- Appends a segment to the entry of the given speaker in an
insertion-ordered association list, creating the entry at the end if
the speaker is new (lines 81-88: Python dict insertion semantics). -/
def insertSeg (acc : List (String × List Seg)) (sp : String) (s : Seg) :
    List (String × List Seg) :=
  match acc with
  | [] => [(sp, [s])]
  | (k, segs) :: rest =>
    if k = sp then (k, segs ++ [s]) :: rest
    else (k, segs) :: insertSeg rest sp s

/-- The body of the loop at lines 76-88 for one word: skip it when its
speaker label is (or defaults to) UNKNOWN, otherwise append its
segment to the speaker's entry. -/
def groupStep (acc : List (String × List Seg)) (w : Word) : List (String × List Seg) :=
  if getSpeaker w = "UNKNOWN" then acc else insertSeg acc (getSpeaker w) (wordSeg w)

/-- Lines 76-88: group the words by speaker id. -/
def groupWords (words : List Word) : List (String × List Seg) :=
  words.foldl groupStep []

/-- Dict access speaker_segments[sp], with the empty list for a
missing key. -/
def lookupSegs (sp : String) : List (String × List Seg) → List Seg
  | [] => []
  | (k, segs) :: rest => if k = sp then segs else lookupSegs sp rest

/-- The segment lists that grouping assigns to one speaker, stated
directly: the segments of exactly the words labelled with that
speaker, in original list order. -/
def segsOf (sp : String) (words : List Word) : List Seg :=
  (words.filter (fun w => getSpeaker w = sp)).map wordSeg

/-- Stable insertion of a segment in front of the first already-placed
segment with a strictly larger start. -/
def insertSorted (s : Seg) : List Seg → List Seg
  | [] => [s]
  | t :: ts => if t.start < s.start then t :: insertSorted s ts else s :: t :: ts

/-- Line 101: sorted(sample_segments, key=lambda x: x['start']), a
stable sort by start, modelled as stable insertion sort. -/
def sortByStart (segs : List Seg) : List Seg :=
  segs.foldr insertSorted []

/-- Lines 99-113: the running-current merge loop.  A segment whose gap
from the current utterance's end is strictly below 500 ms is folded in
(end overwritten, text concatenated with a space); otherwise the
current utterance is emitted when its duration strictly exceeds 500 ms
and the segment starts a new current; the trailing current is emitted
under the same duration test. -/
def mergeLoop : Option Seg → List Seg → List Seg
  | none, [] => []
  | some c, [] => if c.stop - c.start > 500 then [c] else []
  | none, s :: rest => mergeLoop (some s) rest
  | some c, s :: rest =>
    if s.start - c.stop < 500 then
      mergeLoop (some { start := c.start, stop := s.stop, text := c.text ++ " " ++ s.text }) rest
    else if c.stop - c.start > 500 then
      c :: mergeLoop (some s) rest
    else
      mergeLoop (some s) rest

/-- Line 95: sample_segments = segments[:10]. -/
def sampleSegments (segs : List Seg) : List Seg :=
  segs.take 10

/-- Lines 98-113: merged_segments computed from the first 10 segments,
sorted by start. -/
def mergedSegments (segs : List Seg) : List Seg :=
  mergeLoop none (sortByStart (sampleSegments segs))

/-- Line 122: the utterances the extraction loop visits,
merged_segments[:5]. -/
def processedUtterances (segs : List Seg) : List Seg :=
  (mergedSegments segs).take 5

/-- Lines 120-132: the embedding vectors collected for one speaker.
The whole per-utterance pipeline at lines 123-132 (ffmpeg extraction
with its size check, preprocess_wav, the non-empty check on wav, and
encoder.embed_utterance inside the try/except) is an external effect
on a fixed video; it is modelled as one oracle returning some vector
on success and none on any of those failures.  A failed utterance is
skipped and the loop continues. -/
def speakerVectors (embed : Seg → Option (List ℚ)) (segs : List Seg) :
    List (List ℚ) :=
  (processedUtterances segs).filterMap embed

/-- Elementwise sum of two equal-length vectors (numpy broadcasting
over a fixed encoder dimension). -/
def addVec (a b : List ℚ) : List ℚ :=
  List.zipWith (fun x y => x + y) a b

/-- Line 136: np.mean(embeddings, axis=0), the elementwise arithmetic
mean of a non-empty stack of equal-length vectors (empty input gives
the empty vector; numpy would error there, and the caller guards this
case at line 134). -/
def meanVec (vs : List (List ℚ)) : List ℚ :=
  match vs with
  | [] => []
  | v :: rest => (rest.foldl addVec v).map (fun x => x / (vs.length : ℚ))

/-- The per-speaker source count logged at line 138, len(embeddings):
the number of vectors that were averaged into the fingerprint. -/
def sourceCount (embed : Seg → Option (List ℚ)) (segs : List Seg) : ℕ :=
  (speakerVectors embed segs).length

/-- Lines 58-142: create_speaker_embeddings.  Group the words by
speaker, and for each speaker in insertion order collect the vectors
of its processed utterances; a speaker whose collection is empty
(either no merged segments at line 115 or every utterance failed at
line 139) gets no entry, otherwise its entry is the averaged vector
(lines 134-137). -/
def create_speaker_embeddings (embed : Seg → Option (List ℚ)) (words : List Word) :
    List (String × List ℚ) :=
  (groupWords words).filterMap fun p =>
    match speakerVectors embed p.2 with
    | [] => none
    | v :: rest => some (p.1, meanVec (v :: rest))

/-- Dot product of two embedding vectors (np.dot on equal-length
1-D arrays). -/
def dot (a b : List ℝ) : ℝ :=
  (List.zipWith (fun x y => x * y) a b).sum

/-- Line 163: np.dot(emb1, emb2) / (norm(emb1) * norm(emb2)), with
norm(v) the Euclidean norm sqrt(dot v v). -/
noncomputable def cosineSimilarity (a b : List ℝ) : ℝ :=
  dot a b / (Real.sqrt (dot a a) * Real.sqrt (dot b b))

/-- Elementwise negation of a vector, the -v of the specification. -/
def negVec (v : List ℝ) : List ℝ :=
  v.map (fun x => -x)

/-- Lines 145-166: compare_speakers builds one row per candidate
speaker (iteration order of embeddings1) holding one scored column per
reference speaker (iteration order of embeddings2). -/
noncomputable def compare_speakers (e1 e2 : List (String × List ℝ)) :
    List (String × List (String × ℝ)) :=
  e1.map fun p => (p.1, e2.map fun q => (q.1, cosineSimilarity p.2 q.2))

/-- The match record built at lines 185-189. -/
structure Match (α : Type) where
  character : String
  confidence : α
  method : String
deriving Repr, DecidableEq

/-- Line 183: max(scores.items(), key=lambda x: x[1]) starting from a
first item: CPython max keeps the current best and replaces it only on
a strictly greater key, so it returns the first item attaining the
maximum in iteration order. -/
def bestFold {α : Type} [LinearOrder α] (x : String × α) (xs : List (String × α)) :
    String × α :=
  xs.foldl (fun best y => if best.2 < y.2 then y else best) x

/-- Line 183 on a whole row: max of an empty sequence raises
ValueError, modelled as none. -/
def rowBest {α : Type} [LinearOrder α] : List (String × α) → Option (String × α)
  | [] => none
  | x :: xs => some (bestFold x xs)

/-- Lines 169-191: find_best_matches.  Rows are visited in insertion
order; an empty row makes max raise ValueError, aborting the whole
call (none); otherwise the row's best-scoring reference is emitted as
a match exactly when its score is at least the threshold. -/
def find_best_matches {α : Type} [LinearOrder α] :
    List (String × List (String × α)) → α → Option (List (String × Match α))
  | [], _ => some []
  | (speaker, scores) :: rest, threshold =>
    match rowBest scores with
    | none => none
    | some best =>
      match find_best_matches rest threshold with
      | none => none
      | some ms =>
        if threshold ≤ best.2 then
          some ((speaker, ⟨best.1, best.2, "voice_embedding"⟩) :: ms)
        else
          some ms

/-- Line 169: the default acceptance threshold. -/
def defaultThreshold : ℚ := 3 / 4

/-- A concrete diarization input: one speaker S with three clean
1-second spans separated by 1-second gaps, so that selection yields
three utterances. -/
def sampleWords : List Word :=
  [⟨some ("S"), some 0, none, some 1000, none, some ("a"), none⟩,
   ⟨some ("S"), some 2000, none, some 3000, none, some ("b"), none⟩,
   ⟨some ("S"), some 4000, none, some 5000, none, some ("c"), none⟩]

/-- A deterministic stand-in for the extraction-plus-encoder effect
that succeeds on every utterance of sampleWords. -/
def sampleEmbed : Seg → Option (List ℚ) :=
  fun s => if s.start = 0 then some [1] else if s.start = 2000 then some [2] else some [3]

/-- The same stand-in with the middle utterance failing (extraction
returned unusable audio or the encoder raised). -/
def failEmbed : Seg → Option (List ℚ) :=
  fun s => if s.start = 2000 then none else sampleEmbed s

/-! Lemmas about the row maximum (CPython max over dict items). -/

theorem bestFold_nil {α : Type} [LinearOrder α] (x : String × α) :
    bestFold x [] = x := rfl

theorem bestFold_cons {α : Type} [LinearOrder α] (x y : String × α)
    (ys : List (String × α)) :
    bestFold x (y :: ys) = bestFold (if x.2 < y.2 then y else x) ys := rfl

theorem bestFold_mem {α : Type} [LinearOrder α] (x : String × α) (xs : List (String × α)) :
    bestFold x xs ∈ x :: xs := by
  induction xs generalizing x with
  | nil => simp [bestFold_nil]
  | cons y ys ih =>
    rw [bestFold_cons]
    have h := ih (if x.2 < y.2 then y else x)
    rcases List.mem_cons.mp h with h | h
    · rw [h]
      split
      · simp
      · simp
    · exact List.mem_cons_of_mem _ (List.mem_cons_of_mem _ h)

theorem bestFold_ge {α : Type} [LinearOrder α] (x : String × α) (xs : List (String × α)) :
    ∀ q ∈ x :: xs, q.2 ≤ (bestFold x xs).2 := by
  induction xs generalizing x with
  | nil =>
    intro q hq
    rw [List.mem_singleton] at hq
    rw [hq, bestFold_nil]
  | cons y ys ih =>
    intro q hq
    rw [bestFold_cons]
    have hx : x.2 ≤ (if x.2 < y.2 then y else x).2 := by
      by_cases hxy : x.2 < y.2
      · rw [if_pos hxy]
        exact le_of_lt hxy
      · rw [if_neg hxy]
    have hy : y.2 ≤ (if x.2 < y.2 then y else x).2 := by
      by_cases hxy : x.2 < y.2
      · rw [if_pos hxy]
      · rw [if_neg hxy]
        exact le_of_not_lt hxy
    rcases List.mem_cons.mp hq with rfl | hq2
    · exact le_trans hx (ih _ _ (List.mem_cons_self _ _))
    · rcases List.mem_cons.mp hq2 with rfl | hq3
      · exact le_trans hy (ih _ _ (List.mem_cons_self _ _))
      · exact ih _ q (List.mem_cons_of_mem _ hq3)

/-- The result of the fold is the first element of the row attaining
the maximum: everything strictly before it in iteration order scores
strictly below it. -/
theorem bestFold_first {α : Type} [LinearOrder α] (x : String × α) (xs : List (String × α)) :
    ∃ l₁ l₂, x :: xs = l₁ ++ bestFold x xs :: l₂ ∧
      ∀ q ∈ l₁, q.2 < (bestFold x xs).2 := by
  induction xs generalizing x with
  | nil => exact ⟨[], [], rfl, by simp⟩
  | cons y ys ih =>
    by_cases hxy : x.2 < y.2
    · obtain ⟨l₁, l₂, hsplit, hlt⟩ := ih y
      have hb : bestFold x (y :: ys) = bestFold y ys := by
        rw [bestFold_cons, if_pos hxy]
      refine ⟨x :: l₁, l₂, ?_, ?_⟩
      · rw [hb, List.cons_append, ← hsplit]
      · intro q hq
        rw [hb]
        rcases List.mem_cons.mp hq with rfl | hq2
        · exact lt_of_lt_of_le hxy (bestFold_ge y ys y (List.mem_cons_self _ _))
        · exact hlt q hq2
    · obtain ⟨l₁, l₂, hsplit, hlt⟩ := ih x
      have hb : bestFold x (y :: ys) = bestFold x ys := by
        rw [bestFold_cons, if_neg hxy]
      cases l₁ with
      | nil =>
        simp only [List.nil_append, List.cons.injEq] at hsplit
        refine ⟨[], y :: ys, ?_, by simp⟩
        rw [List.nil_append, hb, ← hsplit.1]
      | cons x' l₁ =>
        simp only [List.cons_append, List.cons.injEq] at hsplit
        obtain ⟨hxx', hys⟩ := hsplit
        have hxlt : x.2 < (bestFold x ys).2 := by
          have h := hlt x' (List.mem_cons_self _ _)
          rw [← hxx'] at h
          exact h
        refine ⟨x :: y :: l₁, l₂, ?_, ?_⟩
        · rw [hb]
          simp only [List.cons_append, List.cons.injEq]
          exact ⟨trivial, trivial, hys⟩
        · intro q hq
          rw [hb]
          rcases List.mem_cons.mp hq with rfl | hq2
          · exact hxlt
          · rcases List.mem_cons.mp hq2 with rfl | hq3
            · exact lt_of_le_of_lt (le_of_not_lt hxy) hxlt
            · exact hlt q (List.mem_cons_of_mem _ hq3)

/-! Lemmas about find_best_matches as a whole. -/

theorem find_best_matches_isSome {α : Type} [LinearOrder α]
    (sims : List (String × List (String × α))) (t : α)
    (h : ∀ p ∈ sims, p.2 ≠ []) : ∃ ms, find_best_matches sims t = some ms := by
  induction sims with
  | nil => exact ⟨[], rfl⟩
  | cons p rest ih =>
    obtain ⟨sp, scores⟩ := p
    obtain ⟨ms, hms⟩ := ih (fun q hq => h q (List.mem_cons_of_mem _ hq))
    have hsc : scores ≠ [] := h (sp, scores) (List.mem_cons_self _ _)
    cases scores with
    | nil => exact absurd rfl hsc
    | cons x xs =>
      simp only [find_best_matches, rowBest, hms]
      by_cases ht : t ≤ (bestFold x xs).2
      · rw [if_pos ht]
        exact ⟨_, rfl⟩
      · rw [if_neg ht]
        exact ⟨ms, rfl⟩

theorem find_best_matches_keys {α : Type} [LinearOrder α]
    (sims : List (String × List (String × α))) (t : α) (sp : String) :
    ∀ ms, find_best_matches sims t = some ms →
      ∀ m : Match α, (sp, m) ∈ ms → sp ∈ sims.map Prod.fst := by
  induction sims with
  | nil =>
    intro ms hms m hm
    simp only [find_best_matches] at hms
    obtain rfl : ([] : List (String × Match α)) = ms := Option.some.inj hms
    exact absurd hm (List.not_mem_nil _)
  | cons p rest ih =>
    intro ms hms m hm
    obtain ⟨sp', scores⟩ := p
    cases hsc : rowBest scores with
    | none =>
      simp only [find_best_matches, hsc] at hms
      exact Option.noConfusion hms
    | some best =>
      cases hrest : find_best_matches rest t with
      | none =>
        simp only [find_best_matches, hsc, hrest] at hms
        exact Option.noConfusion hms
      | some ms' =>
        simp only [find_best_matches, hsc, hrest] at hms
        by_cases ht : t ≤ best.2
        · rw [if_pos ht] at hms
          obtain rfl := Option.some.inj hms
          rcases List.mem_cons.mp hm with heq | hm2
          · have : sp = sp' := congrArg Prod.fst heq
            simp [this]
          · exact List.mem_cons_of_mem _ (ih _ hrest m hm2)
        · rw [if_neg ht] at hms
          obtain rfl := Option.some.inj hms
          exact List.mem_cons_of_mem _ (ih _ hrest m hm)

/-- C1 counterexample: a table with an empty row for candidate A and a
high-scoring row for candidate B.  The matcher returns no match map at
all (max of an empty sequence raises ValueError), even though B alone
would have matched. -/
theorem find_best_matches_empty_row_cex :
    find_best_matches [("A", ([] : List (String × ℚ))), ("B", [("X", 9 / 10)])] (3 / 4) =
      none ∧
    find_best_matches [("B", [("X", (9 : ℚ) / 10)])] (3 / 4) =
      some [("B", ⟨"X", 9 / 10, "voice_embedding"⟩)] := by
  constructor
  · rfl
  · norm_num [find_best_matches, rowBest, bestFold]

/-- C1 amended: whenever any candidate's row of similarity scores is
empty, find_best_matches aborts with ValueError (modelled as none)
instead of omitting that candidate and returning a match map for the
remaining candidates. -/
theorem find_best_matches_empty_row_aborts {α : Type} [LinearOrder α]
    (sims : List (String × List (String × α))) (t : α)
    (h : ∃ p ∈ sims, p.2 = []) : find_best_matches sims t = none := by
  induction sims with
  | nil => simp at h
  | cons p rest ih =>
    obtain ⟨q, hq, hqnil⟩ := h
    obtain ⟨sp, scores⟩ := p
    rcases List.mem_cons.mp hq with rfl | hq2
    · obtain rfl : scores = [] := hqnil
      rfl
    · have hrest := ih ⟨q, hq2, hqnil⟩
      simp only [find_best_matches, hrest]
      cases rowBest scores <;> rfl

/-- C1 amended, at a concrete input. -/
theorem find_best_matches_empty_row_aborts_witness :
    find_best_matches [("A", ([] : List (String × ℚ))), ("B", [("X", 9 / 10)])] (3 / 4) =
      none :=
  find_best_matches_empty_row_aborts _ _ ⟨("A", []), by simp, rfl⟩

/-- C2 counterexample: in the row for candidate A the references Y and
X tie at score 4/5 and X is lexicographically smaller than Y, yet the
matcher selects Y because Y was inserted first: Python max returns the
first maximal item in dict iteration (insertion) order. -/
theorem tie_break_insertion_order_cex :
    find_best_matches [("A", [("Y", (4 : ℚ) / 5), ("X", 4 / 5)])] (3 / 4) =
      some [("A", ⟨"Y", 4 / 5, "voice_embedding"⟩)] ∧
    ("X" : String) < "Y" := by
  constructor
  · norm_num [find_best_matches, rowBest, bestFold]
  · rw [String.lt_iff_toList_lt]
    decide

/-- C2 amended: ties are broken by the row's iteration (insertion)
order, not lexicographically: the selected reference is the first
entry of the row attaining the maximum score, and this is what the
matcher emits when the score clears the threshold.  The selection is
a pure function of the row, hence identical across repeated runs with
the same insertion order. -/
theorem tie_break_first_max {α : Type} [LinearOrder α] (sp : String) (x : String × α)
    (xs : List (String × α)) (t : α) (ht : t ≤ (bestFold x xs).2) :
    rowBest (x :: xs) = some (bestFold x xs) ∧
    (∀ q ∈ x :: xs, q.2 ≤ (bestFold x xs).2) ∧
    (∃ l₁ l₂, x :: xs = l₁ ++ bestFold x xs :: l₂ ∧
      ∀ q ∈ l₁, q.2 < (bestFold x xs).2) ∧
    find_best_matches [(sp, x :: xs)] t =
      some [(sp, ⟨(bestFold x xs).1, (bestFold x xs).2, "voice_embedding"⟩)] := by
  refine ⟨rfl, bestFold_ge x xs, bestFold_first x xs, ?_⟩
  simp only [find_best_matches, rowBest]
  rw [if_pos ht]

/-- C2 amended, at a concrete input: the tied row inserted as Y then X
resolves to Y, the first entry attaining the maximum. -/
theorem tie_break_first_max_witness :
    rowBest (("Y", (4 : ℚ) / 5) :: [("X", 4 / 5)]) =
      some (bestFold ("Y", (4 : ℚ) / 5) [("X", 4 / 5)]) ∧
    (∀ q ∈ ("Y", (4 : ℚ) / 5) :: [("X", 4 / 5)],
      q.2 ≤ (bestFold ("Y", (4 : ℚ) / 5) [("X", 4 / 5)]).2) ∧
    (∃ l₁ l₂, ("Y", (4 : ℚ) / 5) :: [("X", 4 / 5)] =
        l₁ ++ bestFold ("Y", (4 : ℚ) / 5) [("X", 4 / 5)] :: l₂ ∧
      ∀ q ∈ l₁, q.2 < (bestFold ("Y", (4 : ℚ) / 5) [("X", 4 / 5)]).2) ∧
    find_best_matches [("A", ("Y", (4 : ℚ) / 5) :: [("X", 4 / 5)])] (3 / 4) =
      some [("A", ⟨(bestFold ("Y", (4 : ℚ) / 5) [("X", 4 / 5)]).1,
        (bestFold ("Y", (4 : ℚ) / 5) [("X", 4 / 5)]).2, "voice_embedding"⟩)] :=
  tie_break_first_max ("A") ("Y", (4 : ℚ) / 5) [("X", 4 / 5)] (3 / 4)
    (by norm_num [bestFold])

/-- C3: for one speaker with spans 0-400, 450-900 and 2000-2200, the
selection step produces exactly one utterance 0-900: the 50 ms gap is
below 500 so the first two spans merge, the merged duration 900
exceeds 500 so it is kept, and the third span starts a new current of
duration 200 that is discarded at the end of the pass. -/
theorem merge_example_single_utterance :
    mergedSegments [⟨0, 400, "w1"⟩, ⟨450, 900, "w2"⟩, ⟨2000, 2200, "w3"⟩] =
      [⟨0, 900, "w1 w2"⟩] ∧
    processedUtterances [⟨0, 400, "w1"⟩, ⟨450, 900, "w2"⟩, ⟨2000, 2200, "w3"⟩] =
      [⟨0, 900, "w1 w2"⟩] ∧
    ((450 : Int) - 400 < 500 ∧ (900 : Int) - 0 > 500 ∧
      ¬ ((2000 : Int) - 900 < 500) ∧ ¬ ((2200 : Int) - 2000 > 500)) :=
  ⟨rfl, rfl, by decide⟩

/-- C9: the selection caps.  At most the first 10 spans of a speaker
enter the merge step (sample_segments = segments[:10], so the merged
result only depends on that prefix), and at most the first 5 merged
utterances are passed to extraction and encoding, regardless of how
many spans the speaker has. -/
theorem selection_caps (embed : Seg → Option (List ℚ)) (segs : List Seg) :
    (sampleSegments segs).length ≤ 10 ∧
    mergedSegments segs = mergedSegments (segs.take 10) ∧
    (processedUtterances segs).length ≤ 5 ∧
    speakerVectors embed segs = speakerVectors embed (segs.take 10) ∧
    (speakerVectors embed segs).length ≤ 5 := by
  have hmerge : mergedSegments segs = mergedSegments (segs.take 10) := by
    simp [mergedSegments, sampleSegments, List.take_take]
  refine ⟨?_, hmerge, ?_, ?_, ?_⟩
  · simp only [sampleSegments, List.length_take]
    omega
  · simp only [processedUtterances, List.length_take]
    omega
  · simp [speakerVectors, processedUtterances, hmerge]
  · refine le_trans (List.length_filterMap_le _ _) ?_
    simp only [processedUtterances, List.length_take]
    omega

/-- C5: for every candidate row of a table whose rows are all
non-empty (so that the call does not abort) and whose candidate keys
are distinct (dict keys), if the row's maximum score mx clears the
threshold then the candidate is matched with confidence exactly mx to
a reference that attained mx in the row, and if mx is below the
threshold the candidate is absent from the match map altogether. -/
theorem threshold_match {α : Type} [LinearOrder α]
    (sims : List (String × List (String × α))) (t : α) (sp : String)
    (row : List (String × α)) (mx : α)
    (hne : ∀ p ∈ sims, p.2 ≠ []) (hkeys : (sims.map Prod.fst).Nodup)
    (hrow : (sp, row) ∈ sims) (hmx1 : mx ∈ row.map Prod.snd)
    (hmx2 : ∀ q ∈ row, q.2 ≤ mx) :
    ∃ ms, find_best_matches sims t = some ms ∧
      (t ≤ mx → ∃ m : Match α, (sp, m) ∈ ms ∧ m.confidence = mx ∧
        m.method = "voice_embedding" ∧ (m.character, mx) ∈ row) ∧
      (mx < t → ∀ m : Match α, (sp, m) ∉ ms) := by
  revert hne hkeys hrow
  induction sims with
  | nil =>
    intro _ _ hrow
    exact absurd hrow (List.not_mem_nil _)
  | cons p rest ih =>
    intro hne hkeys hrow
    obtain ⟨sp', row'⟩ := p
    have hrow'ne : row' ≠ [] := hne (sp', row') (List.mem_cons_self _ _)
    cases row' with
    | nil => exact absurd rfl hrow'ne
    | cons x xs =>
      obtain ⟨ms', hms'⟩ :=
        find_best_matches_isSome rest t (fun q hq => hne q (List.mem_cons_of_mem _ hq))
      have hkey1 : sp' ∉ rest.map Prod.fst := by
        have h := hkeys
        simp only [List.map_cons, List.nodup_cons] at h
        exact h.1
      have hkeys' : (rest.map Prod.fst).Nodup := by
        have h := hkeys
        simp only [List.map_cons, List.nodup_cons] at h
        exact h.2
      have hfind : find_best_matches ((sp', x :: xs) :: rest) t =
          if t ≤ (bestFold x xs).2 then
            some ((sp', ⟨(bestFold x xs).1, (bestFold x xs).2, "voice_embedding"⟩) :: ms')
          else some ms' := by
        simp only [find_best_matches, rowBest, hms']
      rcases List.mem_cons.mp hrow with heq | htail
      · obtain ⟨rfl, rfl⟩ : sp = sp' ∧ row = x :: xs := Prod.mk.injEq .. ▸ heq
        have hb_mem := bestFold_mem x xs
        have hb_ge := bestFold_ge x xs
        have hmx_le : mx ≤ (bestFold x xs).2 := by
          obtain ⟨q, hq, rfl⟩ := List.mem_map.mp hmx1
          exact hb_ge q hq
        have hbe : (bestFold x xs).2 = mx := le_antisymm (hmx2 _ hb_mem) hmx_le
        by_cases ht : t ≤ (bestFold x xs).2
        · rw [if_pos ht] at hfind
          refine ⟨_, hfind, fun _ => ?_, fun hlt => ?_⟩
          · refine ⟨⟨(bestFold x xs).1, (bestFold x xs).2, "voice_embedding"⟩,
              List.mem_cons_self _ _, hbe, rfl, ?_⟩
            have : ((bestFold x xs).1, (bestFold x xs).2) ∈ x :: xs :=
              Prod.mk.eta ▸ hb_mem
            rw [← hbe]
            exact this
          · exact absurd (hbe ▸ ht) (not_le.mpr hlt)
        · rw [if_neg ht] at hfind
          refine ⟨ms', hfind, fun htle => ?_, fun _ m hm => ?_⟩
          · exact absurd (hbe ▸ htle) ht
          · exact hkey1 (find_best_matches_keys rest t sp ms' hms' m hm)
      · obtain ⟨ms'', hms'', hpos, hneg⟩ :=
          ih (fun q hq => hne q (List.mem_cons_of_mem _ hq)) hkeys' htail
        obtain rfl : ms' = ms'' := Option.some.inj (hms' ▸ hms'')
        have hspin : sp ∈ rest.map Prod.fst :=
          List.mem_map.mpr ⟨(sp, row), htail, rfl⟩
        have hspne : sp ≠ sp' := fun h => hkey1 (h ▸ hspin)
        by_cases ht : t ≤ (bestFold x xs).2
        · rw [if_pos ht] at hfind
          refine ⟨_, hfind, fun htle => ?_, fun hlt m hm => ?_⟩
          · obtain ⟨m, hm, h1, h2, h3⟩ := hpos htle
            exact ⟨m, List.mem_cons_of_mem _ hm, h1, h2, h3⟩
          · rcases List.mem_cons.mp hm with heq2 | hm2
            · exact hspne (congrArg Prod.fst heq2)
            · exact hneg hlt m hm2
        · rw [if_neg ht] at hfind
          exact ⟨_, hfind, hpos, hneg⟩

/-- C5 at a concrete input: the spec's table with scores 0.9 and 0.6
under the default threshold 0.75. -/
theorem threshold_match_witness :
    ∃ ms, find_best_matches [("A", [("X", (9 : ℚ) / 10), ("Y", 3 / 5)])] (3 / 4) =
        some ms ∧
      ((3 : ℚ) / 4 ≤ 9 / 10 → ∃ m : Match ℚ, ("A", m) ∈ ms ∧ m.confidence = 9 / 10 ∧
        m.method = "voice_embedding" ∧
        (m.character, (9 : ℚ) / 10) ∈ [("X", (9 : ℚ) / 10), ("Y", 3 / 5)]) ∧
      ((9 : ℚ) / 10 < 3 / 4 → ∀ m : Match ℚ, ("A", m) ∉ ms) :=
  threshold_match [("A", [("X", (9 : ℚ) / 10), ("Y", 3 / 5)])] (3 / 4) "A"
    [("X", (9 : ℚ) / 10), ("Y", 3 / 5)] (9 / 10)
    (by intro p hp
        rcases List.mem_cons.mp hp with rfl | hp2
        · simp
        · exact absurd hp2 (List.not_mem_nil _))
    (by simp)
    (by simp)
    (by simp)
    (by intro q hq
        rcases List.mem_cons.mp hq with rfl | hq2
        · simp
        · rcases List.mem_cons.mp hq2 with rfl | hq3
          · norm_num
          · exact absurd hq3 (List.not_mem_nil _))

/-! Lemmas about grouping by speaker. -/

theorem lookupSegs_insert_self (acc : List (String × List Seg)) (sp : String) (s : Seg) :
    lookupSegs sp (insertSeg acc sp s) = lookupSegs sp acc ++ [s] := by
  induction acc with
  | nil => simp [insertSeg, lookupSegs]
  | cons p rest ih =>
    obtain ⟨k, segs⟩ := p
    by_cases hk : k = sp
    · simp [insertSeg, lookupSegs, hk]
    · simp [insertSeg, lookupSegs, hk, ih]

theorem lookupSegs_insert_other (acc : List (String × List Seg)) (sp sp' : String)
    (s : Seg) (h : sp ≠ sp') : lookupSegs sp (insertSeg acc sp' s) = lookupSegs sp acc := by
  have h' : ¬ sp' = sp := fun hc => h hc.symm
  induction acc with
  | nil => simp [insertSeg, lookupSegs, h']
  | cons p rest ih =>
    obtain ⟨k, segs⟩ := p
    by_cases hk : k = sp'
    · subst hk
      simp [insertSeg, lookupSegs, h']
    · simp [insertSeg, lookupSegs, hk, ih]

theorem lookupSegs_foldl (sp : String) (hsp : sp ≠ "UNKNOWN") (words : List Word)
    (acc : List (String × List Seg)) :
    lookupSegs sp (words.foldl groupStep acc) =
      lookupSegs sp acc ++ (words.filter (fun w => getSpeaker w = sp)).map wordSeg := by
  induction words generalizing acc with
  | nil => simp
  | cons w ws ih =>
    rw [List.foldl_cons, ih]
    by_cases hu : getSpeaker w = "UNKNOWN"
    · have hws : getSpeaker w ≠ sp := fun h => hsp (h ▸ hu)
      rw [groupStep, if_pos hu]
      simp [List.filter_cons, hws]
    · by_cases hws : getSpeaker w = sp
      · rw [groupStep, if_neg hu, hws, lookupSegs_insert_self]
        simp [List.filter_cons, hws]
      · rw [groupStep, if_neg hu,
          lookupSegs_insert_other _ _ _ _ (fun h => hws h.symm)]
        simp [List.filter_cons, hws]

/-- The dict entry of a speaker after grouping holds exactly the
segments of the words labelled with that speaker, in input order. -/
theorem lookupSegs_group (sp : String) (hsp : sp ≠ "UNKNOWN") (words : List Word) :
    lookupSegs sp (groupWords words) = segsOf sp words := by
  rw [groupWords, lookupSegs_foldl sp hsp words []]
  rfl

theorem insertSeg_keys (acc : List (String × List Seg)) (sp : String) (s : Seg) :
    (insertSeg acc sp s).map Prod.fst =
      if sp ∈ acc.map Prod.fst then acc.map Prod.fst else acc.map Prod.fst ++ [sp] := by
  induction acc with
  | nil => simp [insertSeg]
  | cons p rest ih =>
    obtain ⟨k, segs⟩ := p
    by_cases hk : k = sp
    · simp [insertSeg, hk]
    · have hne : sp ≠ k := fun h => hk h.symm
      by_cases hmem : sp ∈ rest.map Prod.fst
      · simp [insertSeg, hk, ih, hmem, hne]
      · simp [insertSeg, hk, ih, hmem, hne]

/-- Invariant of the grouping fold: keys are distinct and never the
UNKNOWN sentinel. -/
theorem groupFold_inv (words : List Word) (acc : List (String × List Seg))
    (hnd : (acc.map Prod.fst).Nodup) (hu : ∀ k ∈ acc.map Prod.fst, k ≠ "UNKNOWN") :
    ((words.foldl groupStep acc).map Prod.fst).Nodup ∧
      ∀ k ∈ (words.foldl groupStep acc).map Prod.fst, k ≠ "UNKNOWN" := by
  induction words generalizing acc with
  | nil => exact ⟨hnd, hu⟩
  | cons w ws ih =>
    rw [List.foldl_cons]
    by_cases hun : getSpeaker w = "UNKNOWN"
    · rw [groupStep, if_pos hun]
      exact ih acc hnd hu
    · rw [groupStep, if_neg hun]
      by_cases hmem : getSpeaker w ∈ acc.map Prod.fst
      · refine ih _ ?_ ?_ <;> rw [insertSeg_keys, if_pos hmem]
        · exact hnd
        · exact hu
      · refine ih _ ?_ ?_ <;> rw [insertSeg_keys, if_neg hmem]
        · rw [List.nodup_append]
          exact ⟨hnd, List.nodup_singleton _, by simpa using fun h => hmem h⟩
        · intro k hk
          rcases List.mem_append.mp hk with hk | hk
          · exact hu k hk
          · rw [List.mem_singleton] at hk
            exact hk ▸ hun

theorem groupWords_keys_nodup (words : List Word) :
    ((groupWords words).map Prod.fst).Nodup :=
  (groupFold_inv words [] (by simp) (by simp)).1

theorem groupWords_keys_known (words : List Word) :
    ∀ k ∈ (groupWords words).map Prod.fst, k ≠ "UNKNOWN" :=
  (groupFold_inv words [] (by simp) (by simp)).2

theorem lookupSegs_of_mem (sp : String) (segs : List Seg)
    (l : List (String × List Seg)) (hnd : (l.map Prod.fst).Nodup)
    (h : (sp, segs) ∈ l) : lookupSegs sp l = segs := by
  induction l with
  | nil => exact absurd h (List.not_mem_nil _)
  | cons p rest ih =>
    obtain ⟨k, segs'⟩ := p
    simp only [List.map_cons, List.nodup_cons] at hnd
    rcases List.mem_cons.mp h with heq | hmem
    · have h1 : sp = k := congrArg Prod.fst heq
      have h2 : segs = segs' := congrArg Prod.snd heq
      simp only [lookupSegs]
      rw [if_pos h1.symm]
      exact h2.symm
    · have hk : k ≠ sp := by
        rintro rfl
        exact hnd.1 (List.mem_map.mpr ⟨(k, segs), hmem, rfl⟩)
      rw [lookupSegs, if_neg hk]
      exact ih hnd.2 hmem

theorem mem_of_lookupSegs_ne (sp : String) (l : List (String × List Seg))
    (h : lookupSegs sp l ≠ []) : (sp, lookupSegs sp l) ∈ l := by
  induction l with
  | nil => exact absurd rfl h
  | cons p rest ih =>
    obtain ⟨k, segs⟩ := p
    by_cases hk : k = sp
    · subst hk
      simp only [lookupSegs, if_pos rfl] at h ⊢
      exact List.mem_cons_self _ _
    · rw [lookupSegs, if_neg hk] at h ⊢
      exact List.mem_cons_of_mem _ (ih h)

/-- C7: the keys of the emitted fingerprint map are exactly the
speakers that are distinct from the UNKNOWN sentinel and whose
selected utterances produced at least one successfully encoded
vector; a speaker with zero usable vectors is entirely absent rather
than mapped to a placeholder. -/
theorem fingerprint_keys (embed : Seg → Option (List ℚ)) (words : List Word)
    (sp : String) :
    (∃ v, (sp, v) ∈ create_speaker_embeddings embed words) ↔
      sp ≠ "UNKNOWN" ∧ speakerVectors embed (segsOf sp words) ≠ [] := by
  constructor
  · rintro ⟨v, hv⟩
    simp only [create_speaker_embeddings] at hv
    obtain ⟨p, hp, hfp⟩ := List.mem_filterMap.mp hv
    obtain ⟨k, segs⟩ := p
    cases hvs : speakerVectors embed segs with
    | nil => simp [hvs] at hfp
    | cons u us =>
      simp only [hvs] at hfp
      have hinj := Option.some.inj hfp
      have hk : k = sp := congrArg Prod.fst hinj
      have hsp : sp ≠ "UNKNOWN" :=
        groupWords_keys_known words sp (List.mem_map.mpr ⟨(k, segs), hp, hk⟩)
      have hlk : lookupSegs sp (groupWords words) = segs :=
        lookupSegs_of_mem sp segs _ (groupWords_keys_nodup words) (hk ▸ hp)
      have hsegs : segs = segsOf sp words := by
        rw [← hlk, lookupSegs_group sp hsp words]
      refine ⟨hsp, ?_⟩
      rw [← hsegs, hvs]
      exact List.cons_ne_nil u us
  · rintro ⟨hsp, hvs⟩
    have hlk : lookupSegs sp (groupWords words) = segsOf sp words :=
      lookupSegs_group sp hsp words
    have hlkne : lookupSegs sp (groupWords words) ≠ [] := by
      rw [hlk]
      intro hnil
      rw [hnil] at hvs
      exact hvs rfl
    have hmem : (sp, segsOf sp words) ∈ groupWords words := by
      have h := mem_of_lookupSegs_ne sp (groupWords words) hlkne
      rwa [hlk] at h
    cases hvsc : speakerVectors embed (segsOf sp words) with
    | nil => exact absurd hvsc hvs
    | cons u us =>
      refine ⟨meanVec (u :: us), ?_⟩
      simp only [create_speaker_embeddings]
      refine List.mem_filterMap.mpr ⟨(sp, segsOf sp words), hmem, ?_⟩
      rw [hvsc]

/-- C10: a word record with missing fields is not rejected: the start
falls back from startMs to start to 0, the end from endMs to end to 0,
the text from text to word to the empty string, and the resulting
(possibly zero-defaulted) segment participates in the speaker's
grouped segment list like any other. -/
theorem missing_fields_defaulted (words : List Word) (w : Word)
    (hw : w ∈ words) (hsp : getSpeaker w ≠ "UNKNOWN") :
    wordSeg w ∈ lookupSegs (getSpeaker w) (groupWords words) ∧
    wordSeg w ∈ segsOf (getSpeaker w) words ∧
    (w.startMs = none → w.start = none → (wordSeg w).start = 0) ∧
    (∀ v, w.startMs = none → w.start = some v → (wordSeg w).start = v) ∧
    (∀ v, w.startMs = some v → (wordSeg w).start = v) ∧
    (w.endMs = none → w.stop = none → (wordSeg w).stop = 0) ∧
    (∀ v, w.endMs = none → w.stop = some v → (wordSeg w).stop = v) ∧
    (∀ v, w.endMs = some v → (wordSeg w).stop = v) ∧
    (w.text = none → w.word = none → (wordSeg w).text = "") ∧
    (∀ v, w.text = none → w.word = some v → (wordSeg w).text = v) ∧
    (∀ v, w.text = some v → (wordSeg w).text = v) := by
  have hmem : wordSeg w ∈ segsOf (getSpeaker w) words := by
    rw [segsOf]
    exact List.mem_map.mpr ⟨w, List.mem_filter.mpr ⟨hw, by simp⟩, rfl⟩
  refine ⟨?_, hmem, ?_, ?_, ?_, ?_, ?_, ?_, ?_, ?_, ?_⟩
  · rw [lookupSegs_group _ hsp]
    exact hmem
  · intro h1 h2
    simp [wordSeg, getStart, h1, h2]
  · intro v h1 h2
    simp [wordSeg, getStart, h1, h2]
  · intro v h1
    simp [wordSeg, getStart, h1]
  · intro h1 h2
    simp [wordSeg, getEnd, h1, h2]
  · intro v h1 h2
    simp [wordSeg, getEnd, h1, h2]
  · intro v h1
    simp [wordSeg, getEnd, h1]
  · intro h1 h2
    simp [wordSeg, getText, h1, h2]
  · intro v h1 h2
    simp [wordSeg, getText, h1, h2]
  · intro v h1
    simp [wordSeg, getText, h1]

/-- C10 at a concrete input: a word carrying only a speaker label, all
other fields missing, yields the zero-defaulted segment and is
grouped. -/
theorem missing_fields_defaulted_witness :
    wordSeg ⟨some ("S"), none, none, none, none, none, none⟩ ∈
      lookupSegs (getSpeaker ⟨some ("S"), none, none, none, none, none, none⟩)
        (groupWords [⟨some ("S"), none, none, none, none, none, none⟩]) ∧
    wordSeg ⟨some ("S"), none, none, none, none, none, none⟩ ∈
      segsOf (getSpeaker ⟨some ("S"), none, none, none, none, none, none⟩)
        [⟨some ("S"), none, none, none, none, none, none⟩] ∧
    ((⟨some ("S"), none, none, none, none, none, none⟩ : Word).startMs = none →
      (⟨some ("S"), none, none, none, none, none, none⟩ : Word).start = none →
      (wordSeg ⟨some ("S"), none, none, none, none, none, none⟩).start = 0) ∧
    (∀ v, (⟨some ("S"), none, none, none, none, none, none⟩ : Word).startMs = none →
      (⟨some ("S"), none, none, none, none, none, none⟩ : Word).start = some v →
      (wordSeg ⟨some ("S"), none, none, none, none, none, none⟩).start = v) ∧
    (∀ v, (⟨some ("S"), none, none, none, none, none, none⟩ : Word).startMs = some v →
      (wordSeg ⟨some ("S"), none, none, none, none, none, none⟩).start = v) ∧
    ((⟨some ("S"), none, none, none, none, none, none⟩ : Word).endMs = none →
      (⟨some ("S"), none, none, none, none, none, none⟩ : Word).stop = none →
      (wordSeg ⟨some ("S"), none, none, none, none, none, none⟩).stop = 0) ∧
    (∀ v, (⟨some ("S"), none, none, none, none, none, none⟩ : Word).endMs = none →
      (⟨some ("S"), none, none, none, none, none, none⟩ : Word).stop = some v →
      (wordSeg ⟨some ("S"), none, none, none, none, none, none⟩).stop = v) ∧
    (∀ v, (⟨some ("S"), none, none, none, none, none, none⟩ : Word).endMs = some v →
      (wordSeg ⟨some ("S"), none, none, none, none, none, none⟩).stop = v) ∧
    ((⟨some ("S"), none, none, none, none, none, none⟩ : Word).text = none →
      (⟨some ("S"), none, none, none, none, none, none⟩ : Word).word = none →
      (wordSeg ⟨some ("S"), none, none, none, none, none, none⟩).text = "") ∧
    (∀ v, (⟨some ("S"), none, none, none, none, none, none⟩ : Word).text = none →
      (⟨some ("S"), none, none, none, none, none, none⟩ : Word).word = some v →
      (wordSeg ⟨some ("S"), none, none, none, none, none, none⟩).text = v) ∧
    (∀ v, (⟨some ("S"), none, none, none, none, none, none⟩ : Word).text = some v →
      (wordSeg ⟨some ("S"), none, none, none, none, none, none⟩).text = v) :=
  missing_fields_defaulted [⟨some ("S"), none, none, none, none, none, none⟩]
    ⟨some ("S"), none, none, none, none, none, none⟩
    (List.mem_singleton.mpr rfl)
    (by rw [getSpeaker]
        simp only [Option.getD_some]
        intro h
        exact absurd (congrArg String.data h) (by simp))

/-! Lemmas about the elementwise mean. -/

theorem addVec_length (a b : List ℚ) : (addVec a b).length = min a.length b.length :=
  List.length_zipWith ..

theorem addVec_getD (a b : List ℚ) (i : ℕ) (ha : i < a.length) (hb : i < b.length) :
    (addVec a b).getD i 0 = a.getD i 0 + b.getD i 0 := by
  have hl : i < (addVec a b).length := by
    rw [addVec_length]
    omega
  rw [List.getD_eq_getElem _ 0 hl, List.getD_eq_getElem _ 0 ha, List.getD_eq_getElem _ 0 hb]
  exact List.getElem_zipWith ..

theorem foldl_addVec_length (rest : List (List ℚ)) (v : List ℚ) (D : ℕ)
    (hv : v.length = D) (hrest : ∀ u ∈ rest, u.length = D) :
    (rest.foldl addVec v).length = D := by
  induction rest generalizing v with
  | nil => exact hv
  | cons u us ih =>
    have hu : u.length = D := hrest u (List.mem_cons_self _ _)
    have hlen : (addVec v u).length = D := by
      rw [addVec_length, hv, hu]
      exact min_self D
    rw [List.foldl_cons]
    exact ih (addVec v u) hlen (fun x hx => hrest x (List.mem_cons_of_mem _ hx))

theorem foldl_addVec_getD (rest : List (List ℚ)) (v : List ℚ) (D i : ℕ)
    (hv : v.length = D) (hrest : ∀ u ∈ rest, u.length = D) (hi : i < D) :
    (rest.foldl addVec v).getD i 0 = v.getD i 0 + (rest.map (fun u => u.getD i 0)).sum := by
  induction rest generalizing v with
  | nil => simp
  | cons u us ih =>
    have hu : u.length = D := hrest u (List.mem_cons_self _ _)
    have hlen : (addVec v u).length = D := by
      rw [addVec_length, hv, hu]
      exact min_self D
    rw [List.foldl_cons,
      ih (addVec v u) hlen (fun x hx => hrest x (List.mem_cons_of_mem _ hx)),
      addVec_getD v u i (by omega) (by omega)]
    simp [add_assoc]

theorem meanVec_length (vs : List (List ℚ)) (D : ℕ) (hne : vs ≠ [])
    (hd : ∀ u ∈ vs, u.length = D) : (meanVec vs).length = D := by
  cases vs with
  | nil => exact absurd rfl hne
  | cons v rest =>
    simp only [meanVec, List.length_map]
    exact foldl_addVec_length rest v D (hd v (List.mem_cons_self _ _))
      (fun u hu => hd u (List.mem_cons_of_mem _ hu))

/-- The mean vector is, in every coordinate below the common
dimension, the sum of that coordinate over the collected vectors
divided by the number of collected vectors. -/
theorem meanVec_getD (vs : List (List ℚ)) (D i : ℕ) (hne : vs ≠ [])
    (hd : ∀ u ∈ vs, u.length = D) (hi : i < D) :
    (meanVec vs).getD i 0 = (vs.map (fun u => u.getD i 0)).sum / (vs.length : ℚ) := by
  cases vs with
  | nil => exact absurd rfl hne
  | cons v rest =>
    have hv : v.length = D := hd v (List.mem_cons_self _ _)
    have hrest : ∀ u ∈ rest, u.length = D := fun u hu => hd u (List.mem_cons_of_mem _ hu)
    have hflen : (rest.foldl addVec v).length = D := foldl_addVec_length rest v D hv hrest
    have hifl : i < (rest.foldl addVec v).length := by omega
    have himap : i < ((rest.foldl addVec v).map
        (fun x => x / ((v :: rest).length : ℚ))).length := by
      rw [List.length_map]
      exact hifl
    simp only [meanVec]
    rw [List.getD_eq_getElem _ 0 himap, List.getElem_map, ← List.getD_eq_getElem _ 0 hifl,
      foldl_addVec_getD rest v D i hv hrest hi]
    simp

/-- Membership in the output map pins the value down to the mean of
the speaker's collected vectors. -/
theorem create_mem_val (embed : Seg → Option (List ℚ)) (words : List Word)
    (sp : String) (v : List ℚ) (h : (sp, v) ∈ create_speaker_embeddings embed words) :
    v = meanVec (speakerVectors embed (segsOf sp words)) ∧
    speakerVectors embed (segsOf sp words) ≠ [] := by
  simp only [create_speaker_embeddings] at h
  obtain ⟨p, hp, hfp⟩ := List.mem_filterMap.mp h
  obtain ⟨k, segs⟩ := p
  cases hvs : speakerVectors embed segs with
  | nil => simp [hvs] at hfp
  | cons u us =>
    simp only [hvs] at hfp
    have hinj := Option.some.inj hfp
    have hk : k = sp := congrArg Prod.fst hinj
    have hv : meanVec (u :: us) = v := congrArg Prod.snd hinj
    have hsp : sp ≠ "UNKNOWN" :=
      groupWords_keys_known words sp (List.mem_map.mpr ⟨(k, segs), hp, hk⟩)
    have hlk : lookupSegs sp (groupWords words) = segs :=
      lookupSegs_of_mem sp segs _ (groupWords_keys_nodup words) (hk ▸ hp)
    have hsegs : segs = segsOf sp words := by
      rw [← hlk, lookupSegs_group sp hsp words]
    constructor
    · rw [← hv, ← hsegs, hvs]
    · rw [← hsegs, hvs]
      exact List.cons_ne_nil u us

/-- A speaker that is not the sentinel and collected at least one
vector gets exactly the mean of its collected vectors. -/
theorem create_mem_of (embed : Seg → Option (List ℚ)) (words : List Word) (sp : String)
    (hsp : sp ≠ "UNKNOWN") (hvs : speakerVectors embed (segsOf sp words) ≠ []) :
    (sp, meanVec (speakerVectors embed (segsOf sp words))) ∈
      create_speaker_embeddings embed words := by
  have hlk : lookupSegs sp (groupWords words) = segsOf sp words :=
    lookupSegs_group sp hsp words
  have hlkne : lookupSegs sp (groupWords words) ≠ [] := by
    rw [hlk]
    intro hnil
    rw [hnil] at hvs
    exact hvs rfl
  have hmem : (sp, segsOf sp words) ∈ groupWords words := by
    have h := mem_of_lookupSegs_ne sp (groupWords words) hlkne
    rwa [hlk] at h
  cases hvsc : speakerVectors embed (segsOf sp words) with
  | nil => exact absurd hvsc hvs
  | cons u us =>
    simp only [create_speaker_embeddings]
    refine List.mem_filterMap.mpr ⟨(sp, segsOf sp words), hmem, ?_⟩
    simp only [hvsc]

/-- C4: every emitted fingerprint vector is the elementwise arithmetic
mean of the speaker's collected vectors: in each dimension it is the
sum across the collected vectors divided by the number of vectors
averaged, and that count (the sourceCount logged per speaker) is the
length of the collected list and is positive. -/
theorem fingerprint_mean (embed : Seg → Option (List ℚ)) (words : List Word)
    (sp : String) (v : List ℚ) (D i : ℕ)
    (hmem : (sp, v) ∈ create_speaker_embeddings embed words)
    (hD : ∀ u ∈ speakerVectors embed (segsOf sp words), u.length = D)
    (hi : i < D) :
    v = meanVec (speakerVectors embed (segsOf sp words)) ∧
    v.length = D ∧
    0 < sourceCount embed (segsOf sp words) ∧
    sourceCount embed (segsOf sp words) = (speakerVectors embed (segsOf sp words)).length ∧
    v.getD i 0 = ((speakerVectors embed (segsOf sp words)).map (fun u => u.getD i 0)).sum /
      (sourceCount embed (segsOf sp words) : ℚ) := by
  obtain ⟨hveq, hvs⟩ := create_mem_val embed words sp v hmem
  refine ⟨hveq, ?_, ?_, rfl, ?_⟩
  · rw [hveq]
    exact meanVec_length _ D hvs hD
  · rw [sourceCount]
    exact List.length_pos.mpr hvs
  · rw [hveq, sourceCount]
    exact meanVec_getD _ D i hvs hD hi

/-- C4 at a concrete input: speaker S collects the three vectors
of sampleEmbed and its fingerprint is their mean. -/
theorem fingerprint_mean_witness :
    meanVec (speakerVectors sampleEmbed (segsOf ("S") sampleWords)) =
      meanVec (speakerVectors sampleEmbed (segsOf ("S") sampleWords)) ∧
    (meanVec (speakerVectors sampleEmbed (segsOf ("S") sampleWords))).length = 1 ∧
    0 < sourceCount sampleEmbed (segsOf ("S") sampleWords) ∧
    sourceCount sampleEmbed (segsOf ("S") sampleWords) =
      (speakerVectors sampleEmbed (segsOf ("S") sampleWords)).length ∧
    (meanVec (speakerVectors sampleEmbed (segsOf ("S") sampleWords))).getD 0 0 =
      ((speakerVectors sampleEmbed (segsOf ("S") sampleWords)).map
        (fun u => u.getD 0 0)).sum / (sourceCount sampleEmbed (segsOf ("S") sampleWords) : ℚ) :=
  fingerprint_mean sampleEmbed sampleWords ("S")
    (meanVec (speakerVectors sampleEmbed (segsOf ("S") sampleWords))) 1 0
    (create_mem_of sampleEmbed sampleWords ("S") (by decide) (by decide))
    (by decide) (by decide)

/-- C6: when the external pipeline fails on one of a speaker's three
selected utterances, that utterance is skipped: the collected vectors
are exactly those of the two surviving utterances, the source count is
2, and the speaker's fingerprint (the mean of the two surviving
vectors) is still emitted. -/
theorem failure_isolation (embed : Seg → Option (List ℚ)) (words : List Word)
    (sp : String) (a b c : Seg) (va vc : List ℚ)
    (hutts : processedUtterances (segsOf sp words) = [a, b, c])
    (ha : embed a = some va) (hb : embed b = none) (hc : embed c = some vc)
    (hsp : sp ≠ "UNKNOWN") :
    speakerVectors embed (segsOf sp words) = [va, vc] ∧
    sourceCount embed (segsOf sp words) = 2 ∧
    (sp, meanVec [va, vc]) ∈ create_speaker_embeddings embed words := by
  have hvec : speakerVectors embed (segsOf sp words) = [va, vc] := by
    rw [speakerVectors, hutts]
    simp [List.filterMap_cons, ha, hb, hc]
  refine ⟨hvec, ?_, ?_⟩
  · rw [sourceCount, hvec]
    rfl
  · have h := create_mem_of embed words sp hsp (by rw [hvec]; exact List.cons_ne_nil _ _)
    rwa [hvec] at h

/-- C6 at a concrete input: the middle of speaker S's three utterances
fails under failEmbed, and the fingerprint averages the other two. -/
theorem failure_isolation_witness :
    speakerVectors failEmbed (segsOf ("S") sampleWords) = [[1], [3]] ∧
    sourceCount failEmbed (segsOf ("S") sampleWords) = 2 ∧
    ("S", meanVec [[(1 : ℚ)], [3]]) ∈ create_speaker_embeddings failEmbed sampleWords :=
  failure_isolation failEmbed sampleWords ("S")
    ⟨0, 1000, "a"⟩ ⟨2000, 3000, "b"⟩ ⟨4000, 5000, "c"⟩ [1] [3]
    (by decide) (by decide) (by decide) (by decide) (by decide)

/-! Lemmas about the cosine similarity. -/

theorem dot_self_nonneg (v : List ℝ) : 0 ≤ dot v v := by
  induction v with
  | nil => simp [dot]
  | cons x xs ih =>
    have h : dot (x :: xs) (x :: xs) = x * x + dot xs xs := by
      simp [dot]
    rw [h]
    have hx : 0 ≤ x * x := mul_self_nonneg x
    linarith

theorem dot_negVec_right (a b : List ℝ) : dot a (negVec b) = - dot a b := by
  induction a generalizing b with
  | nil => simp [dot]
  | cons x xs ih =>
    cases b with
    | nil => simp [dot, negVec]
    | cons y ys =>
      have h := ih ys
      simp only [dot, negVec, List.map_cons, List.zipWith_cons_cons, List.sum_cons] at h ⊢
      rw [h]
      ring

theorem dot_negVec_both (a b : List ℝ) : dot (negVec a) (negVec b) = dot a b := by
  induction a generalizing b with
  | nil => simp [dot, negVec]
  | cons x xs ih =>
    cases b with
    | nil => simp [dot, negVec]
    | cons y ys =>
      have h := ih ys
      simp only [dot, negVec, List.map_cons, List.zipWith_cons_cons, List.sum_cons] at h ⊢
      rw [h]
      ring

theorem cosineSimilarity_self (v : List ℝ) (hv : dot v v ≠ 0) :
    cosineSimilarity v v = 1 := by
  rw [cosineSimilarity, Real.mul_self_sqrt (dot_self_nonneg v), div_self hv]

theorem cosineSimilarity_negVec (v : List ℝ) (hv : dot v v ≠ 0) :
    cosineSimilarity v (negVec v) = -1 := by
  rw [cosineSimilarity, dot_negVec_right v v, dot_negVec_both v v,
    Real.mul_self_sqrt (dot_self_nonneg v), neg_div, div_self hv]

/-- C8: the similarity table has one row per candidate speaker (in
candidate order) and one scored column per reference speaker, each
stored score being the cosine similarity dot(a,b)/(norm a * norm b) of
the corresponding fingerprint vectors; a vector scored against itself
gives 1 and against its elementwise negation gives -1. -/
theorem similarity_table_cosine (e1 e2 : List (String × List ℝ)) (s1 : String)
    (v1 : List ℝ) (s2 : String) (v2 : List ℝ) (v : List ℝ)
    (h1 : (s1, v1) ∈ e1) (h2 : (s2, v2) ∈ e2) (hv : dot v v ≠ 0) :
    (compare_speakers e1 e2).map Prod.fst = e1.map Prod.fst ∧
    (∀ row ∈ compare_speakers e1 e2, row.2.map Prod.fst = e2.map Prod.fst) ∧
    (∃ row, (s1, row) ∈ compare_speakers e1 e2 ∧
      (s2, cosineSimilarity v1 v2) ∈ row) ∧
    cosineSimilarity v1 v2 =
      dot v1 v2 / (Real.sqrt (dot v1 v1) * Real.sqrt (dot v2 v2)) ∧
    cosineSimilarity v v = 1 ∧
    cosineSimilarity v (negVec v) = -1 := by
  refine ⟨?_, ?_, ?_, rfl, cosineSimilarity_self v hv, cosineSimilarity_negVec v hv⟩
  · simp [compare_speakers]
  · intro row hrow
    obtain ⟨p, hp, rfl⟩ := List.mem_map.mp hrow
    simp
  · exact ⟨(e2.map fun q => (q.1, cosineSimilarity v1 q.2)),
      List.mem_map.mpr ⟨(s1, v1), h1, rfl⟩,
      List.mem_map.mpr ⟨(s2, v2), h2, rfl⟩⟩

/-- C8 at a concrete input: the one-candidate one-reference table over
the unit vector. -/
theorem similarity_table_cosine_witness :
    (compare_speakers [("A", [(1 : ℝ)])] [("X", [(1 : ℝ)])]).map Prod.fst =
      [("A", [(1 : ℝ)])].map Prod.fst ∧
    (∀ row ∈ compare_speakers [("A", [(1 : ℝ)])] [("X", [(1 : ℝ)])],
      row.2.map Prod.fst = [("X", [(1 : ℝ)])].map Prod.fst) ∧
    (∃ row, ("A", row) ∈ compare_speakers [("A", [(1 : ℝ)])] [("X", [(1 : ℝ)])] ∧
      ("X", cosineSimilarity [(1 : ℝ)] [(1 : ℝ)]) ∈ row) ∧
    cosineSimilarity [(1 : ℝ)] [(1 : ℝ)] =
      dot [(1 : ℝ)] [(1 : ℝ)] /
        (Real.sqrt (dot [(1 : ℝ)] [(1 : ℝ)]) * Real.sqrt (dot [(1 : ℝ)] [(1 : ℝ)])) ∧
    cosineSimilarity [(1 : ℝ)] [(1 : ℝ)] = 1 ∧
    cosineSimilarity [(1 : ℝ)] (negVec [(1 : ℝ)]) = -1 :=
  similarity_table_cosine [("A", [(1 : ℝ)])] [("X", [(1 : ℝ)])] "A" [(1 : ℝ)]
    "X" [(1 : ℝ)] [(1 : ℝ)] (by simp) (by simp) (by norm_num [dot])

end VoiceWorker
